import Mathlib

/-!
Verification development for the AP-Bots context-assembly core.

Part 1 embeds the token-budget manager of `AP_Bots/models.py`
(class `LLM`: `count_tokens`, `get_avail_space`, `trunc_chat_history`,
`prepare_context`).

Part 2 embeds the retriever of `retriever.py`
(class `Retriever`: `check_file`/`save_file` as explicit file state,
`_neural_retrieval` with the numpy squeeze/argsort pipeline,
`semantic_consensus_weighting`, `contrastive_retrieval`, `get_context`).

All machine-level behavior of the Python source is modelled over Nat/Int/Rat;
file writes become an explicit trace of written contents; list mutation
(`chat_history.pop(0)`) becomes explicit state passing where the second
component of a result is the post-call content of the caller list object.
-/

set_option linter.unusedVariables false

/-- One chat message, `{"role": ..., "content": ...}` in the source. -/
structure ChatTurn where
  role : String
  content : String
deriving DecidableEq

/-- Static data of an `LLM` instance used by the budget manager:
`self.context_length`, `self.gen_params[self.name_token_var]` (the reserved
generation-token count), and the family-specific token counter behind
`count_tokens` on a plain string (all four branches of `count_tokens`
return a nonnegative machine integer, modelled as `Nat`). -/
structure LLMCfg where
  context_length : Nat
  reserved : Nat
  tok : String → Nat

/-- `count_tokens` on a list input first joins the turn contents with a
newline separator and then counts (models.py line 62). -/
def joinContents (h : List ChatTurn) : String :=
  String.intercalate "\n" (h.map ChatTurn.content)

/-- `count_tokens(prompt)` for a list-of-turns argument. -/
def count_tokens_hist (M : LLMCfg) (h : List ChatTurn) : Nat :=
  M.tok (joinContents h)

/-- `get_avail_space` (models.py lines 42-48):
`context_length - gen_params[name_token_var] - count_tokens(prompt)`;
returns `None` (here `none`) when the result is not positive. -/
def get_avail_space (M : LLMCfg) (prompt : List ChatTurn) : Option Int :=
  let avail_space : Int :=
    (M.context_length : Int) - (M.reserved : Int) - (count_tokens_hist M prompt : Int)
  if avail_space ≤ 0 then none else some avail_space

/-- Total token count of a chat history as summed by `trunc_chat_history`
(models.py line 53): a sum of per-turn counts, not a count of the join. -/
def histTokens (M : LLMCfg) (h : List ChatTurn) : Nat :=
  (h.map (fun tm => M.tok tm.content)).sum

/-- The `while total_hist_tokens > hist_dedic_space: chat_history.pop(0)`
loop (models.py lines 54-56).  Popping the front while the running total
exceeds the threshold; the running total maintained by the source equals
the sum over the remaining turns, so the loop is front-dropping recursion.
The loop never pops an empty list: an empty history has total 0, which is
never strictly above a `Nat` threshold. -/
def truncFrom (M : LLMCfg) (thr : Nat) : List ChatTurn → List ChatTurn
  | [] => []
  | tm :: rest =>
    if histTokens M (tm :: rest) > thr then truncFrom M thr rest else tm :: rest

/-- `trunc_chat_history(chat_history, hist_dedic_space=0.2)` (models.py
lines 50-57).  The `hist_dedic_space` parameter is dead on arrival: line 52
rebinds it to `int(self.context_length*0.2)` before first use, so the
argument value is ignored.  For the machine-integer range of context
lengths, `int(L*0.2)` equals `L / 5` in truncating arithmetic (the IEEE
double product `L * 0.2` lies in `[L/5, L/5 + 1)` there), modelled as `Nat`
floor division. -/
def trunc_chat_history (M : LLMCfg) (chat_history : List ChatTurn)
    (hist_dedic_space : ℚ) : List ChatTurn :=
  truncFrom M (M.context_length / 5) chat_history

/-- The `while True` fitting loop of `prepare_context` (models.py lines
82-88), with an explicit fuel argument for structural recursion.  Each pass
joins the current document list with newlines; if the join exceeds the
available space the last (lowest-ranked) document is dropped
(`context = context[:-1]`) and the loop repeats.  Python `[:-1]` on the
empty list yields the empty list again: the source then loops forever,
which this model reports as `none`.  The fuel never reaches zero when it
starts above the list length, because each recursive call removes one
document. -/
def fitLoopFuel (M : LLMCfg) (avail : Int) : Nat → List String → Option String
  | 0, _ => none
  | fuel + 1, context =>
    if (M.tok (String.intercalate "\n" context) : Int) > avail then
      match context with
      | [] => none
      | _ :: _ => fitLoopFuel M avail fuel context.dropLast
    else
      some (String.intercalate "\n" context)

/-- The fitting loop entered with enough fuel to reach the empty list.
`none` means the source loop never terminates. -/
def fitLoop (M : LLMCfg) (avail : Int) (context : List String) : Option String :=
  fitLoopFuel M avail (context.length + 1) context

/-- Observable outcome of `prepare_context` (models.py lines 73-91):
the assembled context string, the `-1` budget-exhaustion sentinel, the
uncaught `TypeError` raised on line 80 when `get_avail_space` returns
`None` (`None - query_len` is not defined), or divergence of the fitting
loop. -/
inductive PrepResult where
  | ctx (s : String)
  | sentinel
  | typeError
  | diverges
deriving DecidableEq

/-- Lines 75-76: the history is truncated first, only when truthy
(nonempty); the truncation mutates the caller list in place, and this
expression is its post-call content. -/
def histAfter (M : LLMCfg) (chat_history : List ChatTurn) : List ChatTurn :=
  if chat_history.isEmpty then chat_history
  else trunc_chat_history M chat_history (0.2 : ℚ)

/-- Lines 77-78: a bare string prompt is wrapped into one user turn. -/
def promptAsList : String ⊕ List ChatTurn → List ChatTurn
  | Sum.inl s => [⟨"user", s⟩]
  | Sum.inr l => l

/-- Line 79: `query_len = self.count_tokens(query) if query else 0`;
`None` and the empty string are both falsy. -/
def queryLen (M : LLMCfg) : Option String → Nat
  | none => 0
  | some q => if q = "" then 0 else M.tok q

/-- `prepare_context(prompt, context, query=None, chat_history=[])`
(models.py lines 73-91).  The second component of the result is the
post-call content of the caller-owned chat-history list object:
`trunc_chat_history` pops turns from that very object, so the caller
observes the truncation as a side effect.  `avail_space` is
`get_avail_space(prompt + chat_history) - query_len`, raising `TypeError`
when `get_avail_space` gave `None`; `if avail_space:` is falsy exactly at
integer zero (a negative value proceeds into the fitting loop); the loop
returns the joined context or never returns; otherwise the sentinel
`-1`. -/
def prepare_context (M : LLMCfg) (prompt : String ⊕ List ChatTurn)
    (context : List String) (query : Option String)
    (chat_history : List ChatTurn) : PrepResult × List ChatTurn :=
  match get_avail_space M (promptAsList prompt ++ histAfter M chat_history) with
  | none => (PrepResult.typeError, histAfter M chat_history)
  | some p =>
    if p - (queryLen M query : Int) = 0 then
      (PrepResult.sentinel, histAfter M chat_history)
    else
      match fitLoop M (p - (queryLen M query : Int)) context with
      | none => (PrepResult.diverges, histAfter M chat_history)
      | some info => (PrepResult.ctx info, histAfter M chat_history)

/-- Concrete instance used by concrete evaluations: context window 10,
512-default generation reservation shrunk to 2, character-count
tokenizer. -/
def M0 : LLMCfg := ⟨10, 2, String.length⟩

/-- Concrete instance with nearly the whole window reserved. -/
def M1 : LLMCfg := ⟨10, 9, String.length⟩

/-- A string the fitting loop can return is within the space it was
given. -/
theorem fitLoopFuel_le (M : LLMCfg) (avail : Int) :
    ∀ (fuel : Nat) (context : List String) (s : String),
      fitLoopFuel M avail fuel context = some s → (M.tok s : Int) ≤ avail := by
  intro fuel
  induction fuel with
  | zero => intro context s h; simp [fitLoopFuel] at h
  | succ n ih =>
    intro context s h
    simp only [fitLoopFuel] at h
    by_cases hc : (M.tok (String.intercalate "\n" context) : Int) > avail
    · rw [if_pos hc] at h
      match context with
      | [] => simp at h
      | x :: xs => exact ih (x :: xs).dropLast s h
    · rw [if_neg hc] at h
      have hs : String.intercalate "\n" context = s := by
        simpa using h
      rw [← hs]
      omega

/-- Claim C1: whenever `prepare_context` returns an assembled context
string (rather than the sentinel, an exception, or divergence), the token
count of that string is at most `context_length - reserved`. -/
theorem prepare_context_token_bound (M : LLMCfg)
    (prompt : String ⊕ List ChatTurn) (context : List String)
    (query : Option String) (chat_history : List ChatTurn)
    (s : String) (hist : List ChatTurn)
    (h : prepare_context M prompt context query chat_history =
      (PrepResult.ctx s, hist)) :
    (M.tok s : Int) ≤ (M.context_length : Int) - (M.reserved : Int) := by
  unfold prepare_context at h
  rcases hg : get_avail_space M
      (promptAsList prompt ++ histAfter M chat_history) with _ | p
  · rw [hg] at h; simp at h
  · rw [hg] at h
    dsimp only at h
    by_cases hz : (p - (queryLen M query : Int)) = 0
    · rw [if_pos hz] at h; simp at h
    · rw [if_neg hz] at h
      rcases hf : fitLoop M (p - (queryLen M query : Int)) context with _ | info
      · rw [hf] at h; simp at h
      · rw [hf] at h
        simp only [Prod.mk.injEq, PrepResult.ctx.injEq] at h
        have hs : info = s := h.1
        have hle : (M.tok info : Int) ≤ p - (queryLen M query : Int) :=
          fitLoopFuel_le M _ _ _ _ hf
      -- p itself is bounded by the budget: get_avail_space returned some p
        have hp : p ≤ (M.context_length : Int) - (M.reserved : Int) := by
          unfold get_avail_space at hg
          by_cases hneg :
              ((M.context_length : Int) - (M.reserved : Int) -
                (count_tokens_hist M
                  (promptAsList prompt ++ histAfter M chat_history) : Int)) ≤ 0
          · rw [if_pos hneg] at hg; simp at hg
          · rw [if_neg hneg] at hg
            simp only [Option.some.injEq] at hg
            omega
        have hq0 : (0 : Int) ≤ (queryLen M query : Int) := Int.ofNat_nonneg _
        rw [← hs]
        omega

/-- Witness for C1 at a concrete input: prompt of 2 tokens, window 10,
reservation 2, one 2-token document; the call returns the document and its
count 2 is at most 10 - 2. -/
theorem prepare_context_token_bound_witness :
    prepare_context M0 (Sum.inl "ab") ["cd"] none [] =
      (PrepResult.ctx "cd", []) ∧
    ((M0.tok "cd" : Int) ≤ (M0.context_length : Int) - (M0.reserved : Int)) := by
  have h : prepare_context M0 (Sum.inl "ab") ["cd"] none [] =
      (PrepResult.ctx "cd", []) := by decide
  exact ⟨h, prepare_context_token_bound M0 _ _ _ _ _ _ h⟩

/-- Claim C2 (code bug evaluation): when the prompt alone makes
`get_avail_space` non-positive, `prepare_context` does not return the `-1`
budget-exhaustion sentinel: line 80 evaluates `None - query_len` and raises
an uncaught `TypeError`.  Concrete failing input: window 10, reservation 9,
character tokenizer, prompt "abc" (3 tokens), so the space is
`10 - 9 - 3 = -2 <= 0`. -/
theorem prepare_context_typeerror_eval :
    prepare_context M1 (Sum.inl "abc") ["d"] none [] =
      (PrepResult.typeError, []) := by
  decide

/-- Claim C3 (code bug evaluation): the fitting loop does not terminate on
every input that enters it.  Concrete failing input: window 10, reservation
2, character tokenizer, prompt "ab" (2 tokens, leaving 6), query "abcdefgh"
(8 tokens), so `avail_space = 6 - 8 = -2`, which is truthy; the loop pops
the single document, reaches the empty list whose join "" still counts
`0 > -2` tokens over budget, and `context[:-1]` on the empty list loops
forever. -/
theorem prepare_context_diverges_eval :
    prepare_context M0 (Sum.inl "ab") ["x"] (some "abcdefgh") [] =
      (PrepResult.diverges, []) := by
  decide

/-- Claim C4 (counterexample): `trunc_chat_history` does not honor its
`hist_dedic_space` argument.  With window 10 and one 3-token turn, a call
with share `1/2` removes the turn even though `3 <= 10 * (1/2)`: the
claimed loop guard `total > context_length * share` is false at entry, yet
the history is emptied, because line 52 overwrites the share with `0.2`. -/
theorem trunc_chat_history_share_ignored_cex :
    trunc_chat_history M0 [⟨"user", "abc"⟩] (1/2 : ℚ) = [] ∧
    ((histTokens M0 [⟨"user", "abc"⟩] : ℚ) ≤ (M0.context_length : ℚ) * (1/2 : ℚ)) := by
  constructor
  · decide
  · norm_num [histTokens, M0]
    decide

/-- After `truncFrom`, the summed token count is within the threshold. -/
theorem truncFrom_bound (M : LLMCfg) (thr : Nat) :
    ∀ h : List ChatTurn, histTokens M (truncFrom M thr h) ≤ thr := by
  intro h
  induction h with
  | nil => simp [truncFrom, histTokens]
  | cons tm rest ih =>
    by_cases hc : histTokens M (tm :: rest) > thr
    · simpa [truncFrom, hc] using ih
    · simp only [truncFrom, hc, if_false]
      omega

/-- Claim C4 (amended): for every history and every `hist_dedic_space`
argument value, `trunc_chat_history` truncates against the fixed threshold
`int(context_length * 0.2)` — the argument is ignored — and afterwards the
total token count of the remaining history is at most that threshold
(`⌊context_length / 5⌋`, hence also at most `⌈context_length * 0.2⌉`);
this subsumes the empty-history case, whose total is zero. -/
theorem trunc_chat_history_bound (M : LLMCfg) (h : List ChatTurn)
    (share : ℚ) :
    histTokens M (trunc_chat_history M h share) ≤ M.context_length / 5 := by
  unfold trunc_chat_history
  exact truncFrom_bound M (M.context_length / 5) h

/-- The truncated history is a suffix of the original: only oldest turns
are removed. -/
theorem truncFrom_suffix (M : LLMCfg) (thr : Nat) :
    ∀ h : List ChatTurn, truncFrom M thr h <:+ h := by
  intro h
  induction h with
  | nil => simp [truncFrom]
  | cons tm rest ih =>
    by_cases hc : histTokens M (tm :: rest) > thr
    · simp only [truncFrom, hc, if_true]
      exact ih.trans (List.suffix_cons tm rest)
    · simp [truncFrom, hc]

/-- When the original history exceeds the threshold, at least one turn is
removed. -/
theorem truncFrom_shorter (M : LLMCfg) (thr : Nat) (h : List ChatTurn)
    (hgt : histTokens M h > thr) :
    (truncFrom M thr h).length < h.length := by
  cases h with
  | nil => simp [histTokens] at hgt
  | cons tm rest =>
    simp only [truncFrom, hgt, if_true]
    have := (truncFrom_suffix M thr rest).length_le
    simp only [List.length_cons]
    omega

/-- Claim C10: `trunc_chat_history` mutates the caller list in place, and
`prepare_context` therefore truncates its caller chat-history argument as
a side effect.  In the state-passing embedding, for every nonempty history
above the threshold: the post-call content of the caller list (second
component of `prepare_context`) equals the value `trunc_chat_history`
returns, that value is a strict suffix of the original list (oldest turns
popped from the front), and it is strictly shorter. -/
theorem prepare_context_history_mutation (M : LLMCfg)
    (prompt : String ⊕ List ChatTurn) (context : List String)
    (query : Option String) (h : List ChatTurn)
    (hne : h ≠ []) (hgt : histTokens M h > M.context_length / 5) :
    (prepare_context M prompt context query h).2 =
      trunc_chat_history M h (0.2 : ℚ) ∧
    trunc_chat_history M h (0.2 : ℚ) <:+ h ∧
    (trunc_chat_history M h (0.2 : ℚ)).length < h.length := by
  refine ⟨?_, ?_, ?_⟩
  · have hh : histAfter M h = trunc_chat_history M h (0.2 : ℚ) := by
      simp [histAfter, hne]
    unfold prepare_context
    rcases hg : get_avail_space M (promptAsList prompt ++ histAfter M h) with _ | p
    · simpa using hh
    · dsimp only
      by_cases hz : (p - (queryLen M query : Int)) = 0
      · rw [if_pos hz]; simpa using hh
      · rw [if_neg hz]
        rcases hf : fitLoop M (p - (queryLen M query : Int)) context with _ | info
        · simpa using hh
        · simpa using hh
  · exact truncFrom_suffix M (M.context_length / 5) h
  · exact truncFrom_shorter M (M.context_length / 5) h hgt

/-- Witness for C10 at a concrete input: one 3-token turn against threshold
`10 / 5 = 2`. -/
theorem prepare_context_history_mutation_witness :
    ([(⟨"user", "abc"⟩ : ChatTurn)] ≠ []) ∧
    ((prepare_context M0 (Sum.inl "a") ["d"] none [⟨"user", "abc"⟩]).2 =
        trunc_chat_history M0 [⟨"user", "abc"⟩] (0.2 : ℚ) ∧
      trunc_chat_history M0 [⟨"user", "abc"⟩] (0.2 : ℚ) <:+ [⟨"user", "abc"⟩] ∧
      (trunc_chat_history M0 [⟨"user", "abc"⟩] (0.2 : ℚ)).length <
        [(⟨"user", "abc"⟩ : ChatTurn)].length) :=
  ⟨by decide,
   prepare_context_history_mutation M0 (Sum.inl "a") ["d"] none
     [⟨"user", "abc"⟩] (by decide) (by decide)⟩

/-!
Part 2: the retriever (`retriever.py`).  Embeddings are opaque rational
vectors produced by a deterministic provider; similarity is an abstract
rational-valued function of two vectors.  The numpy pipeline
`.squeeze().tolist()` / `np.argsort(...)[::-1].tolist()` is modelled shape
by shape, because its behavior differs between 0-d, 1-d and 2-d inputs.
-/

/-- Deterministic embedding provider (`self.retr_model`): `encode` maps a
text to a vector, `similarity` maps two vectors to a score. -/
structure RetrModel where
  embed : String → List ℚ
  sim : List ℚ → List ℚ → ℚ

/-- `retr_gt_name` as returned by `dataset.get_var_names()`: either a plain
field name (possibly the falsy empty string) or a `(text, rating)` pair of
names. -/
inductive GtName where
  | str (s : String)
  | pair (a b : String)
deriving DecidableEq

/-- Dataset collaborator: field names from `get_var_names()` (first
component unused by the retriever) and the rating list from
`get_ratings(i)` (first component unused). -/
structure RDataset where
  gt_name : GtName
  prompt_name : String
  ratings : Nat → List String

/-- Python `str.capitalize()`: first character uppercased, all following
characters lowercased. -/
def pyCapitalize (s : String) : String :=
  match s.toList with
  | [] => ""
  | c :: cs => String.mk (c.toUpper :: cs.map Char.toLower)

/-- A dynamically-typed text argument: `_encode` accepts a single string
(giving one 1-d vector, which `similarity` promotes to one row) or a list
of strings (giving one row per element). -/
inductive PyText where
  | str (s : String)
  | list (l : List String)

/-- Query-side operand of the similarity call, after the promotion the
library applies to anything that is not already 2-d: a single string
encodes to one 1-d vector, promoted to one row; a nonempty list encodes to
one row per element; the empty list encodes to the shape-`(0,)` empty
array, which the promotion turns into ONE row of width 0 (shape `(1, 0)`),
not zero rows. -/
def encRows (R : RetrModel) : PyText → List (List ℚ)
  | PyText.str s => [R.embed s]
  | PyText.list [] => [[]]
  | PyText.list (x :: xs) => (x :: xs).map R.embed

/-- Document-side operand, with the same `(0,) → (1, 0)` promotion for an
empty pool. -/
def docRows (R : RetrModel) : List String → List (List ℚ)
  | [] => [[]]
  | x :: xs => (x :: xs).map R.embed

/-- Width (second shape component) of a 2-d operand; real tensors are
rectangular, so the first row is representative. -/
def rowsWidth (rows : List (List ℚ)) : Nat :=
  (rows.headD []).length

/-- `.squeeze().tolist()` applied to an `(nq, nd)` similarity matrix:
`(1,1)` collapses to a bare float, `(1,m)` and `(n,1)` collapse to a flat
list, everything else stays nested.  (With the `(0,) → (1, 0)` operand
promotion both shape components are always at least 1, so the zero-row
branch is unreachable and kept only for totality.) -/
inductive SimVal where
  | fl (x : ℚ)
  | l1 (xs : List ℚ)
  | l2 (xss : List (List ℚ))
deriving DecidableEq

/-- Result shape of `np.argsort(...)[::-1].tolist()`. -/
inductive IdxVal where
  | i1 (xs : List Nat)
  | i2 (xss : List (List Nat))
deriving DecidableEq

def squeezeTolist (mat : List (List ℚ)) (nd : Nat) : SimVal :=
  match mat with
  | [] => SimVal.l1 []
  | [row] =>
    if nd = 1 then
      match row with
      | [x] => SimVal.fl x
      | _ => SimVal.l1 row
    else SimVal.l1 row
  | r1 :: r2 :: t =>
    if nd = 1 then SimVal.l1 ((r1 :: r2 :: t).map (fun r => r.headD 0))
    else SimVal.l2 (r1 :: r2 :: t)

/-- Stable insertion of index `i` into an ascending index list: `i` lands
after every index with a score not above its own. -/
def argInsert (xs : List ℚ) (i : Nat) : List Nat → List Nat
  | [] => [i]
  | j :: rest =>
    if xs.getD i 0 < xs.getD j 0 then i :: j :: rest
    else j :: argInsert xs i rest

/-- Ascending stable argsort over a flat score list (`np.argsort` along the
last axis; numpy's default introsort tie order is implementation-defined,
and no theorem below depends on the tie order). -/
def argsortAsc (xs : List ℚ) : List Nat :=
  (List.range xs.length).foldl (fun acc i => argInsert xs i acc) []

/-- `np.argsort(similarities)[::-1].tolist()` (retriever.py line 63).
On a bare float (the squeezed `(1,1)` matrix) `np.argsort` raises
`AxisError` — sorting a 0-d array is not defined.  On a flat list the
ascending argsort is reversed wholesale, giving a descending ranking.  On a
nested list `np.argsort` sorts each row ascending, and `[::-1]` then
reverses the ROW ORDER only: row `i` of the result is the ascending argsort
of row `n-1-i`. -/
def argsortStep (v : SimVal) : Except String IdxVal :=
  match v with
  | SimVal.fl _ => Except.error "AxisError: axis -1 is out of bounds for a 0-d array"
  | SimVal.l1 xs => Except.ok (IdxVal.i1 (argsortAsc xs).reverse)
  | SimVal.l2 xss => Except.ok (IdxVal.i2 (xss.map argsortAsc).reverse)

/-- Entry values of the matrix product behind `similarity`: the abstract
similarity score for real widths; for width-0 operands every entry is the
empty dot product, exactly 0. -/
def simEntries (R : RetrModel) (q d : List (List ℚ)) : List (List ℚ) :=
  q.map (fun qe => d.map (fun de => if rowsWidth q = 0 then 0 else R.sim qe de))

/-- `self.retr_model.similarity(query_embeds, doc_embeds)` (retriever.py
line 62): after the `(1, 0)` promotion of empty operands, the call is a
matrix product `a (nq, dq) @ b.T (dd, nd)`, which raises a shape-mismatch
`RuntimeError` whenever the inner dimensions `dq` and `dd` differ — in
particular whenever exactly one side is an empty pool (width 0 against a
real embedding width).  When the widths match, the result is the
`(nq, nd)` score matrix (all zeros for matched width-0 operands, e.g. the
`(1, 0) @ (0, 1)` both-empty product, whose `(1, 1)` result then squeezes
to a bare float downstream). -/
def similarityCall (R : RetrModel) (queries : PyText) (docs : List String) :
    Except String (List (List ℚ)) :=
  if rowsWidth (encRows R queries) = rowsWidth (docRows R docs) then
    Except.ok (simEntries R (encRows R queries) (docRows R docs))
  else
    Except.error "RuntimeError: mat1 and mat2 shapes cannot be multiplied"

/-- Lines 64-65: `if isinstance(similarities, float): similarities =
[similarities]` — boxes a bare float into a one-element list (dead in
practice, since the 0-d argsort on line 63 has already raised). -/
def simFix : SimVal → SimVal
  | SimVal.fl x => SimVal.l1 [x]
  | v => v

/-- `_neural_retrieval(queries, docs)` (retriever.py lines 58-67): encode
both sides, run the similarity call (which raises on an inner-dimension
mismatch), squeeze+tolist the `(nq, nd)` matrix where `nd` is the
document-operand row count after promotion, argsort+reverse.  On an empty
candidate pool nothing survives to be returned: a real-width query side
raises the `RuntimeError` inside the similarity call, and the both-empty
case squeezes its `(1, 1)` zero product to a bare float on which
`np.argsort` raises `AxisError`. -/
def neural_retrieval (R : RetrModel) (queries : PyText) (docs : List String) :
    Except String (SimVal × IdxVal) :=
  match similarityCall R queries docs with
  | Except.error e => Except.error e
  | Except.ok mat =>
    match argsortStep (squeezeTolist mat (docRows R docs).length) with
    | Except.error e => Except.error e
    | Except.ok sorted_idxs =>
      Except.ok (simFix (squeezeTolist mat (docRows R docs).length),
        sorted_idxs)

/-- `get_retrieval_results` (retriever.py lines 47-49) delegates to
`_neural_retrieval` unchanged. -/
def get_retrieval_results (R : RetrModel) (queries : PyText)
    (docs : List String) : Except String (SimVal × IdxVal) :=
  neural_retrieval R queries docs

/-- Concrete provider for concrete evaluations: embeds a string as its
one-component length vector; similarity multiplies the numerators of the
leading components (a dot product on these one-component vectors, written
without rational normalization so concrete runs evaluate by rfl). -/
def R0 : RetrModel :=
  ⟨fun s => [(s.length : ℚ)],
   fun u v => (((u.headD 0).num * (v.headD 0).num : Int) : ℚ)⟩

/-- Concrete dataset collaborator for concrete evaluations. -/
def D0 : RDataset := ⟨GtName.str "score", "review", fun _ => []⟩

/-- Row sums of the full pairwise similarity matrix
(`similarity_matrix.sum(axis=1)`, retriever.py lines 71-73): entry `i` is
the summed similarity of candidate `i` to every candidate (itself
included). -/
def consensusScores (R : RetrModel) (outputs : List String) : List ℚ :=
  (outputs.map R.embed).map
    (fun e => ((outputs.map R.embed).map (fun e2 => R.sim e e2)).sum)

/-- Scanning core of `np.argmax`: keeps the current best index and value,
replacing them only on a strict improvement, so the first index attaining
the maximum wins. -/
def npArgmaxAux (bi : Nat) (bv : ℚ) (i : Nat) : List ℚ → Nat
  | [] => bi
  | x :: xs => if bv < x then npArgmaxAux i x (i + 1) xs else npArgmaxAux bi bv (i + 1) xs

/-- `np.argmax`: first index of the maximum; raises on an empty sequence
(modelled by `none`). -/
def npArgmax : List ℚ → Option Nat
  | [] => none
  | x :: xs => some (npArgmaxAux 0 x 1 xs)

/-- `best_response_index` of `semantic_consensus_weighting`. -/
def npBest (R : RetrModel) (outputs : List String) : Nat :=
  (npArgmax (consensusScores R outputs)).getD 0

/-- `semantic_consensus_weighting(outputs)` (retriever.py lines 69-76):
embed all candidates, build the pairwise similarity matrix, row-sum, and
return the candidate at the `np.argmax` of the row sums. -/
def semantic_consensus_weighting (R : RetrModel) (outputs : List String) :
    Except String String :=
  match npArgmax (consensusScores R outputs) with
  | none => Except.error "ValueError: attempt to get argmax of an empty sequence"
  | some i => Except.ok (outputs.getD i "")

theorem npArgmaxAux_spec :
    ∀ (xs : List ℚ) (bi : Nat) (bv : ℚ) (i : Nat),
      (npArgmaxAux bi bv i xs = bi ∧ ∀ x ∈ xs, x ≤ bv) ∨
      (∃ j, j < xs.length ∧ npArgmaxAux bi bv i xs = i + j ∧
        bv < xs.getD j 0 ∧
        (∀ m, m < j → xs.getD m 0 < xs.getD j 0) ∧
        (∀ m, j < m → m < xs.length → xs.getD m 0 ≤ xs.getD j 0)) := by
  intro xs
  induction xs with
  | nil => intro bi bv i; left; exact ⟨rfl, by simp⟩
  | cons x xs ih =>
    intro bi bv i
    by_cases hx : bv < x
    · rcases ih i x (i + 1) with ⟨hr, hall⟩ | ⟨j, hj, hr, hgt, hprev, hrest⟩
      · right
        refine ⟨0, by simp, ?_, by simpa using hx, ?_, ?_⟩
        · simp only [npArgmaxAux, if_pos hx]
          rw [hr]
          omega
        · intro m hm; omega
        · intro m hm hmlen
          match m, hm with
          | m' + 1, _ =>
            have hm' : m' < xs.length := by simpa using hmlen
            have hmem : xs.getD m' 0 ∈ xs := by
              rw [List.getD_eq_getElem xs 0 hm']
              exact List.getElem_mem hm'
            simpa using hall _ hmem
      · right
        refine ⟨j + 1, by simpa using hj, ?_, by simpa using lt_trans hx hgt, ?_, ?_⟩
        · simp only [npArgmaxAux, if_pos hx]
          rw [hr]; omega
        · intro m hm
          match m with
          | 0 => simpa using hgt
          | m' + 1 => simpa using hprev m' (by omega)
        · intro m hm hmlen
          match m with
          | m' + 1 => simpa using hrest m' (by omega) (by simpa using hmlen)
    · rcases ih bi bv (i + 1) with ⟨hr, hall⟩ | ⟨j, hj, hr, hgt, hprev, hrest⟩
      · left
        refine ⟨by simpa [npArgmaxAux, hx] using hr, ?_⟩
        intro y hy
        rcases List.mem_cons.mp hy with rfl | hy2
        · exact le_of_not_lt hx
        · exact hall y hy2
      · right
        refine ⟨j + 1, by simpa using hj, ?_, by simpa using hgt, ?_, ?_⟩
        · simp only [npArgmaxAux, if_neg hx]
          rw [hr]; omega
        · intro m hm
          match m with
          | 0 =>
            have hxle : x ≤ bv := le_of_not_lt hx
            simpa using lt_of_le_of_lt hxle hgt
          | m' + 1 => simpa using hprev m' (by omega)
        · intro m hm hmlen
          match m with
          | m' + 1 => simpa using hrest m' (by omega) (by simpa using hmlen)

/-- `np.argmax` on a nonempty list returns the first index attaining the
maximum. -/
theorem npArgmax_spec (l : List ℚ) (hne : l ≠ []) :
    ∃ i, npArgmax l = some i ∧ i < l.length ∧
      (∀ j, j < l.length → l.getD j 0 ≤ l.getD i 0) ∧
      (∀ j, j < i → l.getD j 0 < l.getD i 0) := by
  match l, hne with
  | x :: xs, _ =>
    rcases npArgmaxAux_spec xs 0 x 1 with ⟨hr, hall⟩ | ⟨j, hj, hr, hgt, hprev, hrest⟩
    · refine ⟨0, by simp [npArgmax, hr], by simp, ?_, ?_⟩
      · intro m hm
        match m with
        | 0 => exact le_refl _
        | m' + 1 =>
          have hm' : m' < xs.length := by simpa using hm
          have hmem : xs.getD m' 0 ∈ xs := by
            rw [List.getD_eq_getElem xs 0 hm']
            exact List.getElem_mem hm'
          simpa using hall _ hmem
      · intro m hm; omega
    · refine ⟨j + 1, ?_, by simpa using hj, ?_, ?_⟩
      · simp only [npArgmax, hr, Option.some.injEq]
        omega
      · intro m hm
        match m with
        | 0 => simpa using le_of_lt hgt
        | m' + 1 =>
          have hm' : m' < xs.length := by simpa using hm
          rcases lt_trichotomy m' j with hc | hc | hc
          · simpa using le_of_lt (hprev m' hc)
          · subst hc; simp
          · simpa using hrest m' hc hm'
      · intro m hm
        match m with
        | 0 => simpa using hgt
        | m' + 1 => simpa using hprev m' (by omega)

/-- The score list has one row sum per candidate. -/
theorem consensusScores_length (R : RetrModel) (outputs : List String) :
    (consensusScores R outputs).length = outputs.length := by
  simp [consensusScores]

/-- Claim C8: for every nonempty candidate list,
`semantic_consensus_weighting` returns the candidate whose similarity
row-sum is maximal, and among equal maxima the one at the first (lowest)
index: every row-sum is at most the chosen one, and every strictly earlier
row-sum is strictly below it.  Deterministic by construction: the provider
and the input order fix the result. -/
theorem semantic_consensus_first_max (R : RetrModel) (outputs : List String)
    (hne : outputs ≠ []) :
    npBest R outputs < outputs.length ∧
    semantic_consensus_weighting R outputs =
      Except.ok (outputs.getD (npBest R outputs) "") ∧
    (∀ j, j < outputs.length →
      (consensusScores R outputs).getD j 0 ≤
        (consensusScores R outputs).getD (npBest R outputs) 0) ∧
    (∀ j, j < npBest R outputs →
      (consensusScores R outputs).getD j 0 <
        (consensusScores R outputs).getD (npBest R outputs) 0) := by
  have hlen := consensusScores_length R outputs
  have hne2 : consensusScores R outputs ≠ [] := by
    intro hc
    apply hne
    have : (consensusScores R outputs).length = 0 := by rw [hc]; rfl
    rw [hlen] at this
    exact List.length_eq_zero.mp this
  rcases npArgmax_spec (consensusScores R outputs) hne2 with ⟨i, hsome, hlt, hmax, hfirst⟩
  have hbest : npBest R outputs = i := by simp [npBest, hsome]
  refine ⟨by rw [hbest]; rw [hlen] at hlt; exact hlt, ?_, ?_, ?_⟩
  · simp [semantic_consensus_weighting, hsome, hbest]
  · intro j hj
    rw [hbest]
    exact hmax j (by rw [hlen]; exact hj)
  · intro j hj
    rw [hbest]
    exact hfirst j (by rw [hbest] at hj; exact hj)

/-- Witness for C8 at a concrete input: candidates `["a","bb","bb"]` under
the length-vector provider give row sums `[5, 10, 10]`; the first maximal
index is 1 and the returned text is "bb". -/
theorem semantic_consensus_first_max_witness :
    npBest R0 ["a", "bb", "bb"] < (["a", "bb", "bb"] : List String).length ∧
    semantic_consensus_weighting R0 ["a", "bb", "bb"] =
      Except.ok ((["a", "bb", "bb"] : List String).getD (npBest R0 ["a", "bb", "bb"]) "") ∧
    (∀ j, j < (["a", "bb", "bb"] : List String).length →
      (consensusScores R0 ["a", "bb", "bb"]).getD j 0 ≤
        (consensusScores R0 ["a", "bb", "bb"]).getD (npBest R0 ["a", "bb", "bb"]) 0) ∧
    (∀ j, j < npBest R0 ["a", "bb", "bb"] →
      (consensusScores R0 ["a", "bb", "bb"]).getD j 0 <
        (consensusScores R0 ["a", "bb", "bb"]).getD (npBest R0 ["a", "bb", "bb"]) 0) :=
  semantic_consensus_first_max R0 ["a", "bb", "bb"] (by simp)

/-- Claim C5: an empty candidate pool makes the ranking raise rather than
return degenerate or empty statistics.  For every provider whose
embeddings have real (nonzero) width — the spec fixes a positive embedding
dimension — and every query argument shape, `get_retrieval_results` /
`_neural_retrieval` on zero documents ends in an exception: a query side
of real width hits the inner-dimension mismatch `RuntimeError` inside the
similarity call, and an empty query list reaches the `(1, 1)` both-empty
product, which squeezes to a bare float on which `np.argsort` raises
`AxisError`.  Nothing is ever returned to the caller. -/
theorem neural_retrieval_empty_pool_raises (R : RetrModel)
    (hdim : ∀ s, (R.embed s).length ≠ 0) (q : PyText) :
    ∃ e, get_retrieval_results R q [] = Except.error e := by
  match q with
  | PyText.str s =>
    refine ⟨"RuntimeError: mat1 and mat2 shapes cannot be multiplied", ?_⟩
    unfold get_retrieval_results neural_retrieval similarityCall
    rw [if_neg (by simpa [encRows, docRows, rowsWidth] using hdim s)]
  | PyText.list [] =>
    exact ⟨"AxisError: axis -1 is out of bounds for a 0-d array", rfl⟩
  | PyText.list (x :: xs) =>
    refine ⟨"RuntimeError: mat1 and mat2 shapes cannot be multiplied", ?_⟩
    unfold get_retrieval_results neural_retrieval similarityCall
    rw [if_neg (by simpa [encRows, docRows, rowsWidth] using hdim x)]

/-- Witness for C5 at a concrete input: the length-vector provider has
embedding width 1, and one query against zero documents raises. -/
theorem neural_retrieval_empty_pool_raises_witness :
    (∀ s, (R0.embed s).length ≠ 0) ∧
    (∃ e, get_retrieval_results R0 (PyText.str "q") [] = Except.error e) :=
  ⟨fun s => by simp [R0],
   neural_retrieval_empty_pool_raises R0 (fun s => by simp [R0])
     (PyText.str "q")⟩

/-- Python negative-end slicing `l[-k:]` with `k = num_ce` (retriever.py
line 86): for `k >= 1` the last `min(k, len(l))` elements; for `k = 0` the
slice is `l[0:]`, the WHOLE list, because `-0 == 0`. -/
def sliceNegLast (k : Nat) (l : List α) : List α :=
  if k = 0 then l else l.drop (l.length - k)

/-- One contrastive exemplar string (retriever.py lines 94-100): prompt
field always; ground-truth field when `retr_gt_name` is truthy; rating
field when it is a `(text, rating)` pair of names. -/
def ceExample (D : RDataset) (doc_ratings texts gts : List String)
    (j : Nat) : String :=
  match D.gt_name with
  | GtName.pair a b =>
    pyCapitalize D.prompt_name ++ ":\n" ++ texts.getD j "" ++ "\n" ++
      pyCapitalize a ++ ":\n" ++ gts.getD j "" ++ "\n" ++
      pyCapitalize b ++ ":\n" ++ doc_ratings.getD j ""
  | GtName.str g =>
    if g = "" then pyCapitalize D.prompt_name ++ ":\n" ++ texts.getD j ""
    else
      pyCapitalize D.prompt_name ++ ":\n" ++ texts.getD j "" ++ "\n" ++
        pyCapitalize g ++ ":\n" ++ gts.getD j ""

/-- The exemplar strings emitted for one selected subject `ce`
(retriever.py lines 89-101): `max_range = len(retr_texts[ce]) if ce_k >
len(retr_texts[ce]) else ce_k`, i.e. `min(ce_k, len(retr_texts[ce]))`
strings.  The source fetches `get_ratings(ce)` only in the pair case; the
model passes it unconditionally, and `ceExample` reads it only in the pair
branch, which is observationally the same for the pure collaborator. -/
def subjectExamples (D : RDataset) (retr_texts retr_gts : List (List String))
    (ce_k ce : Nat) : List String :=
  (List.range
      (if ce_k > (retr_texts.getD ce []).length
        then (retr_texts.getD ce []).length else ce_k)).map
    (fun j =>
      ceExample D (D.ratings ce) (retr_texts.getD ce []) (retr_gts.getD ce []) j)

/-- `contrastive_retrieval(queries, retr_texts, retr_gts, num_ce, ce_k)`
(retriever.py lines 78-104): ranks the queries against the queries
themselves, then for each result row takes `ce_retr[-num_ce:]` as the
selected exemplar subjects and emits that subject's own exemplar strings.
A flat (1-d) ranking arises only for zero queries, where the loop body
never runs; with exactly one query the pipeline has already raised
(0-d argsort), and a hypothetical nonempty flat ranking would make
`ce_retr[-num_ce:]` subscript an `int` and raise `TypeError`. -/
def contrastive_retrieval (R : RetrModel) (D : RDataset)
    (queries : List String) (retr_texts retr_gts : List (List String))
    (num_ce ce_k : Nat) : Except String (List (List (List String))) :=
  match get_retrieval_results R (PyText.list queries) queries with
  | Except.error e => Except.error e
  | Except.ok (_, IdxVal.i1 l) =>
    match l with
    | [] => Except.ok []
    | _ :: _ => Except.error "TypeError: int object is not subscriptable"
  | Except.ok (_, IdxVal.i2 rows) =>
    Except.ok (rows.map (fun ce_retr =>
      (sliceNegLast num_ce ce_retr).map
        (fun ce => subjectExamples D retr_texts retr_gts ce_k ce)))

theorem argInsert_length (xs : List ℚ) (i : Nat) :
    ∀ l : List Nat, (argInsert xs i l).length = l.length + 1 := by
  intro l
  induction l with
  | nil => rfl
  | cons j rest ih =>
    simp only [argInsert]
    by_cases hc : xs.getD i 0 < xs.getD j 0
    · rw [if_pos hc]; simp
    · rw [if_neg hc]
      simp only [List.length_cons, ih]

theorem argInsert_mem (xs : List ℚ) (i j : Nat) :
    ∀ l : List Nat, j ∈ argInsert xs i l → j = i ∨ j ∈ l := by
  intro l
  induction l with
  | nil => intro h; simpa [argInsert] using h
  | cons m rest ih =>
    intro h
    by_cases hc : xs.getD i 0 < xs.getD m 0
    · simp only [argInsert, if_pos hc] at h
      rcases List.mem_cons.mp h with rfl | h2
      · exact Or.inl rfl
      · exact Or.inr h2
    · simp only [argInsert, if_neg hc] at h
      rcases List.mem_cons.mp h with rfl | h2
      · exact Or.inr (List.mem_cons_self _ _)
      · rcases ih h2 with rfl | h3
        · exact Or.inl rfl
        · exact Or.inr (List.mem_cons_of_mem _ h3)

theorem argsortAsc_foldl_length (xs : List ℚ) :
    ∀ (l : List Nat) (acc : List Nat),
      (l.foldl (fun acc i => argInsert xs i acc) acc).length =
        acc.length + l.length := by
  intro l
  induction l with
  | nil => intro acc; simp
  | cons i rest ih =>
    intro acc
    simp only [List.foldl_cons]
    rw [ih, argInsert_length]
    simp only [List.length_cons]
    omega

/-- The ascending argsort is a full permutation-sized index list. -/
theorem argsortAsc_length (xs : List ℚ) :
    (argsortAsc xs).length = xs.length := by
  unfold argsortAsc
  rw [argsortAsc_foldl_length]
  simp

theorem argsortAsc_foldl_mem (xs : List ℚ) (j : Nat) :
    ∀ (l : List Nat) (acc : List Nat),
      j ∈ l.foldl (fun acc i => argInsert xs i acc) acc → j ∈ acc ∨ j ∈ l := by
  intro l
  induction l with
  | nil => intro acc h; exact Or.inl h
  | cons i rest ih =>
    intro acc h
    simp only [List.foldl_cons] at h
    rcases ih (argInsert xs i acc) h with h2 | h2
    · rcases argInsert_mem xs i j acc h2 with rfl | h3
      · exact Or.inr (List.mem_cons_self _ _)
      · exact Or.inl h3
    · exact Or.inr (List.mem_cons_of_mem _ h2)

/-- Every entry of the ascending argsort is a valid candidate index. -/
theorem argsortAsc_mem (xs : List ℚ) (j : Nat) (h : j ∈ argsortAsc xs) :
    j < xs.length := by
  unfold argsortAsc at h
  rcases argsortAsc_foldl_mem xs j (List.range xs.length) [] h with h2 | h2
  · simp at h2
  · exact List.mem_range.mp h2

theorem sliceNegLast_length (k : Nat) (l : List α) :
    (sliceNegLast k l).length = if k = 0 then l.length else min k l.length := by
  unfold sliceNegLast
  by_cases hk : k = 0
  · simp [hk]
  · simp only [hk, if_false, List.length_drop]
    omega

theorem sliceNegLast_subset (k : Nat) (l : List α) : sliceNegLast k l ⊆ l := by
  unfold sliceNegLast
  by_cases hk : k = 0
  · rw [if_pos hk]
    exact fun x hx => hx
  · rw [if_neg hk]
    exact List.drop_subset _ l

theorem squeezeTolist_cons_cons (r1 r2 : List ℚ) (t : List (List ℚ))
    (nd : Nat) (h : nd ≠ 1) :
    squeezeTolist (r1 :: r2 :: t) nd = SimVal.l2 (r1 :: r2 :: t) := by
  simp only [squeezeTolist]
  rw [if_neg h]

theorem squeezeTolist_of_len2 (mat : List (List ℚ)) (nd : Nat)
    (hm : 2 ≤ mat.length) (h : nd ≠ 1) :
    squeezeTolist mat nd = SimVal.l2 mat := by
  match mat, hm with
  | a :: b :: t, _ => exact squeezeTolist_cons_cons a b t nd h

/-- Shape analysis of ranking the query list against itself: zero queries
reach the both-empty `(1, 1)` product and raise at the 0-d argsort; one
query squeezes its `(1, 1)` score matrix to a float and raises the same
way; so a returned ranking comes from two or more queries and is the
nested per-row ascending rankings with the rows reversed, one full-width
row per query. -/
theorem neural_retrieval_self_shapes (R : RetrModel) (qs : List String)
    (sv : SimVal) (iv : IdxVal)
    (h : get_retrieval_results R (PyText.list qs) qs = Except.ok (sv, iv)) :
    2 ≤ qs.length ∧
    iv = IdxVal.i2
      (((simEntries R (encRows R (PyText.list qs)) (docRows R qs)).map
        argsortAsc).reverse) ∧
    (simEntries R (encRows R (PyText.list qs)) (docRows R qs)).length =
      qs.length ∧
    (∀ row ∈ simEntries R (encRows R (PyText.list qs)) (docRows R qs),
      row.length = qs.length) := by
  match qs with
  | [] =>
    have hval : get_retrieval_results R (PyText.list []) [] =
        Except.error "AxisError: axis -1 is out of bounds for a 0-d array" := rfl
    rw [hval] at h
    simp at h
  | [q] =>
    unfold get_retrieval_results neural_retrieval similarityCall at h
    rw [if_pos (show rowsWidth (encRows R (PyText.list [q])) =
      rowsWidth (docRows R [q]) from rfl)] at h
    rw [show simEntries R (encRows R (PyText.list [q])) (docRows R [q]) =
        [[if rowsWidth (encRows R (PyText.list [q])) = 0 then 0
          else R.sim (R.embed q) (R.embed q)]] from by
      simp [simEntries, encRows, docRows]] at h
    rw [show (docRows R [q]).length = 1 from by simp [docRows]] at h
    dsimp only at h
    rw [show ∀ x : ℚ, squeezeTolist [[x]] 1 = SimVal.fl x from fun x => rfl] at h
    simp [argsortStep] at h
  | q1 :: q2 :: rest =>
    unfold get_retrieval_results neural_retrieval similarityCall at h
    rw [if_pos (show rowsWidth (encRows R (PyText.list (q1 :: q2 :: rest))) =
      rowsWidth (docRows R (q1 :: q2 :: rest)) from rfl)] at h
    have hm : 2 ≤ (simEntries R (encRows R (PyText.list (q1 :: q2 :: rest)))
        (docRows R (q1 :: q2 :: rest))).length := by
      simp [simEntries, encRows]
    have hnd : (docRows R (q1 :: q2 :: rest)).length ≠ 1 := by
      simp [docRows]
    dsimp only at h
    rw [squeezeTolist_of_len2 _ _ hm hnd] at h
    simp only [argsortStep, Except.ok.injEq, Prod.mk.injEq] at h
    refine ⟨by simp, h.2.symm, ?_, ?_⟩
    · simp [simEntries, encRows]
    · intro row hrow
      rcases List.mem_map.mp hrow with ⟨qe, _, rfl⟩
      simp [docRows]

/-- Claim C9 (counterexample): with `num_ce = 0` the claimed selection of
"numCE exemplar subjects" fails: Python `l[-0:]` is `l[0:]`, the whole
list, so every query receives ALL subjects (here 2 per query, not 0). -/
theorem contrastive_numce_zero_cex :
    (contrastive_retrieval R0 D0 ["a", "bb"] [["t"], ["u", "v"]]
        [["g"], ["h", "i"]] 0 1).map (fun out => out.map List.length) =
      Except.ok [2, 2] := by
  rfl

/-- Claim C9 (amended): `contrastive_retrieval` ranks the queries against
the queries themselves and emits one entry per query; each entry holds
`min(numCE, numQueries)` selected subjects when `numCE >= 1` and ALL
`numQueries` subjects when `numCE = 0` (the `[-num_ce:]` slice artifact);
for each selected subject, a valid subject index below the query count, it
emits exactly `min(ceK, that subject's document count)` exemplar strings —
the count is clamped, never an error. -/
theorem contrastive_retrieval_counts (R : RetrModel) (D : RDataset)
    (qs : List String) (ts gs : List (List String)) (num_ce ce_k : Nat)
    (out : List (List (List String)))
    (h : contrastive_retrieval R D qs ts gs num_ce ce_k = Except.ok out) :
    out.length = qs.length ∧
    (∀ row ∈ out,
      row.length = if num_ce = 0 then qs.length else min num_ce qs.length) ∧
    (∀ row ∈ out, ∀ subj ∈ row, ∃ ce, ce < qs.length ∧
      subj.length = min ce_k ((ts.getD ce []).length)) := by
  unfold contrastive_retrieval at h
  rcases hr : get_retrieval_results R (PyText.list qs) qs with e | ⟨sv, iv⟩
  · rw [hr] at h; simp at h
  · rw [hr] at h
    obtain ⟨hlen2, hiv, hslen, hrows⟩ :=
      neural_retrieval_self_shapes R qs sv iv hr
    subst hiv
    simp only [Except.ok.injEq] at h
    subst h
    have hrowlen : ∀ ce_retr ∈
        ((simEntries R (encRows R (PyText.list qs)) (docRows R qs)).map
          argsortAsc).reverse,
        ce_retr.length = qs.length := by
      intro ce_retr hmem
      rw [List.mem_reverse] at hmem
      rcases List.mem_map.mp hmem with ⟨mrow, hmrow, rfl⟩
      rw [argsortAsc_length]
      exact hrows mrow hmrow
    refine ⟨?_, ?_, ?_⟩
    · rw [List.length_map, List.length_reverse, List.length_map, hslen]
    · intro row hrow
      rcases List.mem_map.mp hrow with ⟨ce_retr, hmem, rfl⟩
      rw [List.length_map, sliceNegLast_length, hrowlen ce_retr hmem]
    · intro row hrow subj hsubj
      rcases List.mem_map.mp hrow with ⟨ce_retr, hmem, rfl⟩
      rcases List.mem_map.mp hsubj with ⟨ce, hce, rfl⟩
      have hcelt : ce < qs.length := by
        have h1 : ce ∈ ce_retr := sliceNegLast_subset num_ce ce_retr hce
        rw [List.mem_reverse] at hmem
        rcases List.mem_map.mp hmem with ⟨mrow, hmrow, rfl⟩
        have h2 := argsortAsc_mem mrow ce h1
        rw [hrows mrow hmrow] at h2
        exact h2
      refine ⟨ce, hcelt, ?_⟩
      simp only [subjectExamples, List.length_map, List.length_range]
      split <;> omega

/-- Witness for the amended C9 at a concrete input: two queries, one and
two documents per subject, `num_ce = 1`, `ce_k = 5`: each query gets
`min(1, 2) = 1` subject, and each subject emits `min(5, docs)` strings. -/
theorem contrastive_retrieval_counts_witness :
    contrastive_retrieval R0 D0 ["a", "bb"] [["t"], ["u", "v"]]
        [["g"], ["h", "i"]] 1 5 =
      Except.ok ((contrastive_retrieval R0 D0 ["a", "bb"] [["t"], ["u", "v"]]
        [["g"], ["h", "i"]] 1 5).toOption.getD []) ∧
    ((contrastive_retrieval R0 D0 ["a", "bb"] [["t"], ["u", "v"]]
        [["g"], ["h", "i"]] 1 5).toOption.getD []).length =
      (["a", "bb"] : List String).length :=
  ⟨rfl,
   (contrastive_retrieval_counts R0 D0 ["a", "bb"] [["t"], ["u", "v"]]
     [["g"], ["h", "i"]] 1 5 _ rfl).1⟩

/-!
The `get_context` loop (retriever.py lines 106-149) with its on-disk cache.
The cache file is explicit state: `file0` is the artifact content before
the run (`none` when no file exists), and the run result carries the trace
of `save_file` calls (query index paired with the full content written by
that whole-file overwrite). -/

/-- Persisted cache artifact content: one ranked-neighbor-index list per
query position. -/
abbrev Cache := List (List Nat)

/-- `check_file` (retriever.py lines 30-39): parse the artifact if present,
else start from the empty list (cold start, not an error). -/
def check_file (file0 : Option Cache) : Cache :=
  file0.getD []

/-- One formatted example of `get_context` (lines 138-146): the
ground-truth line is suppressed when the retrieved text equals its ground
truth; a `(text, rating)` pair of field names appends a rating line; the
plain-name branch carries a trailing newline (line 143). -/
def gcExample (D : RDataset) (ratings : List String) (j : Nat)
    (text gt : String) : String :=
  if text ≠ gt then
    match D.gt_name with
    | GtName.pair a b =>
      pyCapitalize D.prompt_name ++ ":\n" ++ text ++ "\n" ++
        pyCapitalize a ++ ":\n" ++ gt ++ "\n" ++
        pyCapitalize b ++ ":\n" ++ ratings.getD j ""
    | GtName.str g =>
      pyCapitalize D.prompt_name ++ ":\n" ++ text ++ "\n" ++
        pyCapitalize g ++ ":\n" ++ gt ++ "\n"
  else pyCapitalize D.prompt_name ++ ":\n" ++ text

/-- Lines 129-147 for one query: take the top-`k` ranked indices, gather
texts, ground truths and (for pair field names) reindexed ratings, and
format one example per pair.  The inner loop variable shadows the outer
query index harmlessly (it is dead after the loop). -/
def formatForQuery (D : RDataset) (retr_text retr_gt : List String)
    (i k : Nat) (sorted : List Nat) : List String :=
  ((((sorted.take k).map (fun d => retr_text.getD d "")).zip
      ((sorted.take k).map (fun d => retr_gt.getD d ""))).enum).map
    (fun p =>
      gcExample D
        (match D.gt_name with
         | GtName.pair _ _ => (sorted.take k).map (fun d => (D.ratings i).getD d "")
         | GtName.str _ => [])
        p.1 p.2.1 p.2.2)

/-- `self.get_retrieval_results(query, retr_text)` with a single query
string (line 122): the flat descending ranking.  The nested shape cannot
arise from one query row; the branch is kept for totality. -/
def retrieveSingle (R : RetrModel) (q : String) (docs : List String) :
    Except String (List Nat) :=
  match get_retrieval_results R (PyText.str q) docs with
  | Except.error e => Except.error e
  | Except.ok (_, IdxVal.i1 idxs) => Except.ok idxs
  | Except.ok (_, IdxVal.i2 _) => Except.error "unreachable shape: one query row"

/-- The main loop of `get_context` (lines 115-147): `i` is the running
query index, `n` the total query count, `cache` the in-memory `all_idxs`,
`writes` the `save_file` trace so far.  A cache hit (`len(all_idxs) > i`)
reuses `all_idxs[i]`; a miss computes the ranking, appends it, and flushes
the whole list when `(i+1) % 500 == 0` or `i+1 == n`. -/
def getCtxLoop (R : RetrModel) (D : RDataset)
    (retr_texts retr_gts : List (List String)) (k n : Nat) :
    List String → Nat → Cache → List (Nat × Cache) →
    Except String (List (List String) × Cache × List (Nat × Cache))
  | [], _, cache, writes => Except.ok ([], cache, writes)
  | q :: rest, i, cache, writes =>
    if cache.length > i then
      (getCtxLoop R D retr_texts retr_gts k n rest (i + 1) cache writes).map
        (fun r =>
          (formatForQuery D (retr_texts.getD i []) (retr_gts.getD i []) i k
            (cache.getD i []) :: r.1, r.2))
    else
      match retrieveSingle R q (retr_texts.getD i []) with
      | Except.error e => Except.error e
      | Except.ok sorted =>
        (getCtxLoop R D retr_texts retr_gts k n rest (i + 1) (cache ++ [sorted])
          (if (i + 1) % 500 = 0 ∨ i + 1 = n then writes ++ [(i, cache ++ [sorted])]
            else writes)).map
          (fun r =>
            (formatForQuery D (retr_texts.getD i []) (retr_gts.getD i []) i k
              sorted :: r.1, r.2))

/-- Observable output of `get_context`: the `k == 0` early return is a flat
list of empty strings (line 109), every other return is the nested
example lists. -/
inductive CtxOut where
  | flat (l : List String)
  | nested (l : List (List String))
deriving DecidableEq

/-- Result of one `get_context` run: the returned value, the final
in-memory `all_idxs` (empty for the `k == 0` path, which never touches the
cache), and the `save_file` trace. -/
structure CtxRun where
  out : CtxOut
  cache : Cache
  writes : List (Nat × Cache)
deriving DecidableEq

/-- `get_context(queries, retr_texts, retr_gts, k)` (lines 106-149) against
explicit file state `file0`. -/
def get_context (R : RetrModel) (D : RDataset) (queries : List String)
    (retr_texts retr_gts : List (List String)) (k : Nat)
    (file0 : Option Cache) : Except String CtxRun :=
  if k = 0 then
    Except.ok ⟨CtxOut.flat (List.replicate queries.length ""), [], []⟩
  else
    (getCtxLoop R D retr_texts retr_gts k queries.length queries 0
        (check_file file0) []).map
      (fun r => ⟨CtxOut.nested r.1, r.2.1, r.2.2⟩)

/-- File content after a run: the last whole-file overwrite, or the
original artifact when nothing was written. -/
def fileAfter (file0 : Option Cache) (writes : List (Nat × Cache)) :
    Option Cache :=
  match writes.getLast? with
  | some p => some p.2
  | none => file0

/-- The examples `get_context` formats for query positions
`i, i+1, ..., i+len-1` when the ranking of position `j` is `c.getD j`. -/
def fmtRange (D : RDataset) (retr_texts retr_gts : List (List String))
    (k : Nat) (c : Cache) (i len : Nat) : List (List String) :=
  (List.range' i len).map
    (fun j => formatForQuery D (retr_texts.getD j []) (retr_gts.getD j []) j k
      (c.getD j []))

theorem fmtRange_zero (D : RDataset) (ts gs : List (List String)) (k : Nat)
    (c : Cache) (i : Nat) : fmtRange D ts gs k c i 0 = [] := by
  simp [fmtRange, List.range']

theorem fmtRange_succ (D : RDataset) (ts gs : List (List String)) (k : Nat)
    (c : Cache) (i len : Nat) :
    fmtRange D ts gs k c i (len + 1) =
      formatForQuery D (ts.getD i []) (gs.getD i []) i k (c.getD i []) ::
        fmtRange D ts gs k c (i + 1) len := by
  simp [fmtRange, List.range'_succ]

/-- A list extending a prefix agrees with it on all indices inside the
prefix. -/
theorem prefix_getD (l1 l2 : List α) (h : l1 <+: l2) (i : Nat)
    (hi : i < l1.length) (d : α) : l2.getD i d = l1.getD i d := by
  obtain ⟨t, rfl⟩ := h
  simp [List.getD_eq_getElem?_getD, List.getElem?_append_left hi]

theorem getD_append_self (l : List α) (x d : α) :
    (l ++ [x]).getD l.length d = x := by
  simp [List.getD_eq_getElem?_getD, List.getElem?_append_right (le_refl l.length)]

/-- A run over fully cached query positions is pure: it reads `all_idxs`
entry by entry, writes nothing, and formats the same examples a computing
run would. -/
theorem getCtxLoop_warm (R : RetrModel) (D : RDataset)
    (ts gs : List (List String)) (k n : Nat) :
    ∀ (qs : List String) (i : Nat) (cache : Cache)
      (writes : List (Nat × Cache)),
      i + qs.length ≤ cache.length →
      getCtxLoop R D ts gs k n qs i cache writes =
        Except.ok (fmtRange D ts gs k cache i qs.length, cache, writes) := by
  intro qs
  induction qs with
  | nil =>
    intro i cache writes h
    simp [getCtxLoop, fmtRange_zero]
  | cons q rest ih =>
    intro i cache writes h
    have hgt : cache.length > i := by
      simp only [List.length_cons] at h
      omega
    simp only [getCtxLoop, if_pos hgt]
    rw [ih (i + 1) cache writes (by simp only [List.length_cons] at h; omega)]
    simp only [Except.map, List.length_cons, fmtRange_succ]

/-- Structure of a run whose remaining query positions are all cache
misses: the final `all_idxs` extends the incoming one with exactly one new
ranking per query, examples are formatted from those final entries, and
(when at least one query remains) the last flush wrote the complete final
`all_idxs` at the last query position. -/
theorem getCtxLoop_cold (R : RetrModel) (D : RDataset)
    (ts gs : List (List String)) (k n : Nat) :
    ∀ (qs : List String) (i : Nat) (cache : Cache)
      (writes : List (Nat × Cache)) (exs : List (List String)) (c : Cache)
      (w : List (Nat × Cache)),
      cache.length = i → i + qs.length = n →
      getCtxLoop R D ts gs k n qs i cache writes = Except.ok (exs, c, w) →
      c.length = n ∧ cache <+: c ∧
      exs = fmtRange D ts gs k c i qs.length ∧
      (qs = [] → c = cache ∧ w = writes) ∧
      (qs ≠ [] → w.getLast? = some (n - 1, c)) := by
  intro qs
  induction qs with
  | nil =>
    intro i cache writes exs c w hlen hn h
    simp only [getCtxLoop, Except.ok.injEq, Prod.mk.injEq] at h
    obtain ⟨h1, h2, h3⟩ := h
    subst h1
    subst h2
    subst h3
    simp only [List.length_nil] at hn
    refine ⟨by omega, List.prefix_refl _,
      by simp only [List.length_nil, fmtRange_zero], fun _ => ⟨rfl, rfl⟩, ?_⟩
    intro hfalse
    exact absurd rfl hfalse
  | cons q rest ih =>
    intro i cache writes exs c w hlen hn h
    have hngt : ¬ cache.length > i := by omega
    simp only [getCtxLoop, if_neg hngt] at h
    rcases hr : retrieveSingle R q (ts.getD i []) with e | sorted
    · rw [hr] at h
      simp at h
    · rw [hr] at h
      dsimp only at h
      rcases hrec : getCtxLoop R D ts gs k n rest (i + 1) (cache ++ [sorted])
          (if (i + 1) % 500 = 0 ∨ i + 1 = n then
            writes ++ [(i, cache ++ [sorted])] else writes) with e2 | res2
      · rw [hrec] at h
        simp [Except.map] at h
      · obtain ⟨exs2, c2, w2⟩ := res2
        rw [hrec] at h
        simp only [Except.map, Except.ok.injEq, Prod.mk.injEq] at h
        obtain ⟨hexs, hc, hw⟩ := h
        have hn2 : (i + 1) + rest.length = n := by
          simp only [List.length_cons] at hn
          omega
        have IH := ih (i + 1) (cache ++ [sorted])
          (if (i + 1) % 500 = 0 ∨ i + 1 = n then
            writes ++ [(i, cache ++ [sorted])] else writes)
          exs2 c2 w2 (by simp [hlen]) hn2 hrec
        obtain ⟨hclen, hpre, hexs2, hnil2, hne2⟩ := IH
        have hpre1 : cache <+: cache ++ [sorted] := List.prefix_append _ _
        have hgetD : c2.getD i [] = sorted := by
          rw [prefix_getD (cache ++ [sorted]) c2 hpre i
            (by simp only [List.length_append, List.length_cons, hlen]; omega) []]
          rw [← hlen]
          exact getD_append_self cache sorted []
        subst hc hw hexs
        refine ⟨hclen, hpre1.trans hpre, ?_, ?_, ?_⟩
        · simp only [List.length_cons, fmtRange_succ, hgetD, hexs2]
        · intro hfalse
          simp at hfalse
        · intro _
          by_cases hrest : rest = []
          · obtain ⟨hceq, hweq⟩ := hnil2 hrest
            have hn3 : i + 1 = n := by
              rw [hrest] at hn2
              simpa using hn2
            rw [hweq, if_pos (Or.inr hn3), List.getLast?_concat]
            simp only [Option.some.injEq, Prod.mk.injEq]
            exact ⟨by omega, hceq.symm⟩
          · exact hne2 hrest

/-- Claim C7: cache transparency of `get_context`.  For identical inputs
and the (deterministic, functional) embedding provider: when a run against
no cache artifact succeeds, running again against the artifact that run
left behind succeeds with the same returned output.  The warm run reads
every ranking from the cache (`getCtxLoop_warm`, a pure read-only pass)
and those cached rankings are exactly the ones the cold run computed and
flushed (`getCtxLoop_cold`). -/
theorem get_context_cache_transparent (R : RetrModel) (D : RDataset)
    (qs : List String) (ts gs : List (List String)) (k : Nat) (r : CtxRun)
    (h : get_context R D qs ts gs k none = Except.ok r) :
    ∃ r2, get_context R D qs ts gs k (fileAfter none r.writes) = Except.ok r2 ∧
      r2.out = r.out := by
  by_cases hk : k = 0
  · subst hk
    unfold get_context at h
    rw [if_pos rfl] at h
    obtain rfl : _ = r := (Except.ok.injEq _ _).mp h
    refine ⟨_, ?_, rfl⟩
    unfold get_context
    rw [if_pos rfl]
  · simp only [get_context, if_neg hk] at h
    rcases hrec : getCtxLoop R D ts gs k qs.length qs 0 (check_file none) []
        with e | res
    · rw [hrec] at h
      simp [Except.map] at h
    · obtain ⟨exs, c, w⟩ := res
      rw [hrec] at h
      simp only [Except.map, Except.ok.injEq] at h
      have IH := getCtxLoop_cold R D ts gs k qs.length qs 0 (check_file none)
        [] exs c w rfl (by omega) hrec
      obtain ⟨hclen, hpre, hexs, hnil, hne⟩ := IH
      cases qs with
      | nil =>
        obtain ⟨hceq, hweq⟩ := hnil rfl
        have hw : r.writes = [] := by rw [← h, hweq]
        have hfa : fileAfter none r.writes = none := by rw [hw]; rfl
        rw [hfa]
        refine ⟨r, ?_, rfl⟩
        simp only [get_context, if_neg hk]
        rw [hrec]
        simp only [Except.map]
        rw [h]
      | cons q0 qrest =>
        have hlast := hne (by simp)
        have hfa : fileAfter none r.writes = some c := by
          rw [← h]
          simp only [fileAfter, hlast]
        rw [hfa]
        refine ⟨⟨CtxOut.nested (fmtRange D ts gs k c 0 (q0 :: qrest).length),
          c, []⟩, ?_, ?_⟩
        · simp only [get_context, if_neg hk]
          rw [show check_file (some c) = c from rfl]
          rw [getCtxLoop_warm R D ts gs k (q0 :: qrest).length (q0 :: qrest) 0 c
            [] (by omega)]
          simp [Except.map]
        · rw [← h]
          simp only [hexs]

/-- Witness for C7 at a concrete input: one query, two documents, `k = 1`;
the cold run computes and flushes the ranking, and rerunning against the
flushed artifact returns the same output. -/
theorem get_context_cache_transparent_witness :
    get_context R0 D0 ["q"] [["t", "u"]] [["g", "h"]] 1 none =
      Except.ok ((get_context R0 D0 ["q"] [["t", "u"]] [["g", "h"]] 1
        none).toOption.getD ⟨CtxOut.flat [], [], []⟩) ∧
    (∃ r2, get_context R0 D0 ["q"] [["t", "u"]] [["g", "h"]] 1
        (fileAfter none ((get_context R0 D0 ["q"] [["t", "u"]] [["g", "h"]] 1
          none).toOption.getD ⟨CtxOut.flat [], [], []⟩).writes) =
        Except.ok r2 ∧
      r2.out = ((get_context R0 D0 ["q"] [["t", "u"]] [["g", "h"]] 1
        none).toOption.getD ⟨CtxOut.flat [], [], []⟩).out) :=
  ⟨rfl,
   get_context_cache_transparent R0 D0 ["q"] [["t", "u"]] [["g", "h"]] 1 _ rfl⟩

theorem chain_head_weaken (a b : Cache) (l : List Cache) (hab : a <+: b)
    (h : List.Chain' (fun x y => x <+: y) (b :: l)) :
    List.Chain' (fun x y => x <+: y) (a :: l) := by
  cases l with
  | nil => simp
  | cons cHead t =>
    rw [List.chain'_cons] at h ⊢
    exact ⟨hab.trans h.1, h.2⟩

/-- Flush-trace structure of the `get_context` loop: every run appends to
the incoming write trace a sequence of whole-file snapshots that extend
one another (and the incoming `all_idxs`) as prefixes; each flush happens
at a query position that is a multiple of 500 or the last one; and if the
incoming cache cannot cover all positions, the final flush wrote the
complete final `all_idxs` at the last query position. -/
theorem getCtxLoop_writes (R : RetrModel) (D : RDataset)
    (ts gs : List (List String)) (k n : Nat) :
    ∀ (qs : List String) (i : Nat) (cache : Cache)
      (writes : List (Nat × Cache)) (exs : List (List String)) (c : Cache)
      (w : List (Nat × Cache)),
      i ≤ cache.length → i + qs.length = n →
      getCtxLoop R D ts gs k n qs i cache writes = Except.ok (exs, c, w) →
      ∃ nw, w = writes ++ nw ∧
        List.Chain' (fun a b => a <+: b) (cache :: nw.map Prod.snd) ∧
        (∀ p ∈ nw, (p.1 + 1) % 500 = 0 ∨ p.1 + 1 = n) ∧
        cache <+: c ∧
        (qs = [] → c = cache ∧ w = writes) ∧
        (cache.length < n → nw.getLast? = some (n - 1, c)) := by
  intro qs
  induction qs with
  | nil =>
    intro i cache writes exs c w hle hn h
    simp only [getCtxLoop, Except.ok.injEq, Prod.mk.injEq] at h
    obtain ⟨h1, h2, h3⟩ := h
    subst h1
    subst h2
    subst h3
    simp only [List.length_nil] at hn
    refine ⟨[], by simp, by simp, by simp, List.prefix_refl _,
      fun _ => ⟨rfl, rfl⟩, ?_⟩
    intro hlt
    omega
  | cons q rest ih =>
    intro i cache writes exs c w hle hn h
    have hn2 : (i + 1) + rest.length = n := by
      simp only [List.length_cons] at hn
      omega
    by_cases hhit : cache.length > i
    · simp only [getCtxLoop, if_pos hhit] at h
      rcases hrec : getCtxLoop R D ts gs k n rest (i + 1) cache writes
          with e | res
      · rw [hrec] at h
        simp [Except.map] at h
      · obtain ⟨exs2, c2, w2⟩ := res
        rw [hrec] at h
        simp only [Except.map, Except.ok.injEq, Prod.mk.injEq] at h
        obtain ⟨hexs, rfl, rfl⟩ := h
        obtain ⟨nw, hweq, hchain, hcond, hpre, _, hlast⟩ :=
          ih (i + 1) cache writes exs2 c2 w2 (by omega) hn2 hrec
        exact ⟨nw, hweq, hchain, hcond, hpre,
          fun hfalse => absurd hfalse (by simp), hlast⟩
    · have hlen : cache.length = i := by omega
      simp only [getCtxLoop, if_neg hhit] at h
      rcases hr : retrieveSingle R q (ts.getD i []) with e | sorted
      · rw [hr] at h
        simp at h
      · rw [hr] at h
        dsimp only at h
        rcases hrec : getCtxLoop R D ts gs k n rest (i + 1) (cache ++ [sorted])
            (if (i + 1) % 500 = 0 ∨ i + 1 = n then
              writes ++ [(i, cache ++ [sorted])] else writes) with e2 | res2
        · rw [hrec] at h
          simp [Except.map] at h
        · obtain ⟨exs2, c2, w2⟩ := res2
          rw [hrec] at h
          simp only [Except.map, Except.ok.injEq, Prod.mk.injEq] at h
          obtain ⟨hexs, rfl, rfl⟩ := h
          have hlen2 : (cache ++ [sorted]).length = i + 1 := by
            simp [hlen]
          obtain ⟨nw2, hweq2, hchain2, hcond2, hpre2, hnil2, hlast2⟩ :=
            ih (i + 1) (cache ++ [sorted])
              (if (i + 1) % 500 = 0 ∨ i + 1 = n then
                writes ++ [(i, cache ++ [sorted])] else writes)
              exs2 c2 w2 (by omega) hn2 hrec
          have hpre1 : cache <+: cache ++ [sorted] := List.prefix_append _ _
          by_cases hflush : (i + 1) % 500 = 0 ∨ i + 1 = n
          · rw [if_pos hflush] at hweq2 hnil2
            refine ⟨(i, cache ++ [sorted]) :: nw2, ?_, ?_, ?_,
              hpre1.trans hpre2, fun hfalse => absurd hfalse (by simp), ?_⟩
            · rw [hweq2, List.append_assoc, List.singleton_append]
            · rw [List.map_cons, List.chain'_cons]
              exact ⟨hpre1, hchain2⟩
            · intro p hp
              rcases List.mem_cons.mp hp with rfl | hp2
              · exact hflush
              · exact hcond2 p hp2
            · intro hlt
              rcases List.eq_nil_or_concat nw2 with hnw2 | ⟨nwInit, nwLastE, rfl⟩
              · subst hnw2
                have hi1 : i + 1 = n := by
                  by_contra hne1
                  have hlt2 : (cache ++ [sorted]).length < n := by omega
                  have := hlast2 hlt2
                  simp at this
                have hrnil : rest = [] := by
                  have hr0 : rest.length = 0 := by omega
                  exact List.length_eq_zero.mp hr0
                obtain ⟨hceq, _⟩ := hnil2 hrnil
                simp only [List.getLast?_singleton, Option.some.injEq,
                  Prod.mk.injEq]
                exact ⟨by omega, hceq.symm⟩
              · simp only [List.concat_eq_append] at hweq2 hlast2 ⊢
                have hi1 : i + 1 ≠ n := by
                  intro hi1
                  have hrnil : rest = [] := by
                    have hr0 : rest.length = 0 := by omega
                    exact List.length_eq_zero.mp hr0
                  obtain ⟨_, hweqnil⟩ := hnil2 hrnil
                  rw [hweqnil] at hweq2
                  have hempty : nwInit ++ [nwLastE] = [] :=
                    (List.append_right_eq_self).mp hweq2.symm
                  simp at hempty
                have hlast3 : (nwInit ++ [nwLastE]).getLast? =
                    some (n - 1, c2) := hlast2 (by omega)
                rw [List.getLast?_concat] at hlast3
                rw [show ((i, cache ++ [sorted]) :: (nwInit ++ [nwLastE])) =
                  ((i, cache ++ [sorted]) :: nwInit) ++ [nwLastE] from rfl]
                rw [List.getLast?_concat]
                exact hlast3
          · rw [if_neg hflush] at hweq2 hnil2
            refine ⟨nw2, hweq2, chain_head_weaken _ _ _ hpre1 hchain2, hcond2,
              hpre1.trans hpre2, fun hfalse => absurd hfalse (by simp), ?_⟩
            intro hlt
            have hi1 : i + 1 ≠ n := by
              intro hi1
              exact hflush (Or.inr hi1)
            have hlt2 : (cache ++ [sorted]).length < n := by omega
            exact hlast2 hlt2

/-- Claim C6 (amended): durability and cadence of the `get_context` cache
flushes.  For every successful run: (a) the previously persisted content
is a prefix of every flushed snapshot, and successive snapshots extend one
another as prefixes — a crash between flushes loses at most the unflushed
tail and never disturbs previously persisted entries (the overwrite itself
is still non-atomic); (b) every flush happens when `(i+1) % 500 == 0` for
the running QUERY index `i` — i.e. every 500 processed queries, cache hits
included, not every 500 appended entries — or at the last query; (c) when
documents are requested (`k` nonzero) the in-memory cache only ever grows
from the persisted content, and (d) if the persisted content did not
already cover every query, the final flush wrote the complete final cache
at the last query position. -/
theorem get_context_flush_props (R : RetrModel) (D : RDataset)
    (qs : List String) (ts gs : List (List String)) (k : Nat)
    (file0 : Option Cache) (r : CtxRun)
    (h : get_context R D qs ts gs k file0 = Except.ok r) :
    List.Chain' (fun a b => a <+: b)
      (check_file file0 :: r.writes.map Prod.snd) ∧
    (∀ p ∈ r.writes, (p.1 + 1) % 500 = 0 ∨ p.1 + 1 = qs.length) ∧
    (k ≠ 0 → check_file file0 <+: r.cache) ∧
    (k ≠ 0 → (check_file file0).length < qs.length →
      r.writes.getLast?.map Prod.snd = some r.cache) := by
  by_cases hk : k = 0
  · subst hk
    unfold get_context at h
    rw [if_pos rfl] at h
    obtain rfl : _ = r := (Except.ok.injEq _ _).mp h
    refine ⟨by simp, by simp, ?_, ?_⟩
    · intro hfalse; exact absurd rfl hfalse
    · intro hfalse; exact absurd rfl hfalse
  · unfold get_context at h
    rw [if_neg hk] at h
    rcases hrec : getCtxLoop R D ts gs k qs.length qs 0 (check_file file0) []
        with e | res
    · rw [hrec] at h
      simp [Except.map] at h
    · obtain ⟨exs, c, w⟩ := res
      rw [hrec] at h
      simp only [Except.map, Except.ok.injEq] at h
      obtain rfl : _ = r := h
      obtain ⟨nw, hweq, hchain, hcond, hpre, _, hlast⟩ :=
        getCtxLoop_writes R D ts gs k qs.length qs 0 (check_file file0) []
          exs c w (by omega) (by omega) hrec
      have hnw : w = nw := by simpa using hweq
      subst hnw
      exact ⟨hchain, hcond, fun _ => hpre,
        fun _ hlt => by rw [hlast hlt]; rfl⟩

/-- Witness for the amended C6 at a concrete input: two queries against an
absent artifact, `k = 1`; the run flushes once, at the last query, writing
both computed rankings. -/
theorem get_context_flush_props_witness :
    get_context R0 D0 ["a", "bb"] [["t", "u"], ["t", "u"]]
        [["g", "h"], ["g", "h"]] 1 none =
      Except.ok ((get_context R0 D0 ["a", "bb"] [["t", "u"], ["t", "u"]]
        [["g", "h"], ["g", "h"]] 1 none).toOption.getD
          ⟨CtxOut.flat [], [], []⟩) ∧
    (List.Chain' (fun a b => a <+: b)
      (check_file none :: (((get_context R0 D0 ["a", "bb"]
        [["t", "u"], ["t", "u"]] [["g", "h"], ["g", "h"]] 1 none).toOption.getD
          ⟨CtxOut.flat [], [], []⟩).writes).map Prod.snd) ∧
     (∀ p ∈ ((get_context R0 D0 ["a", "bb"] [["t", "u"], ["t", "u"]]
        [["g", "h"], ["g", "h"]] 1 none).toOption.getD
          ⟨CtxOut.flat [], [], []⟩).writes,
       (p.1 + 1) % 500 = 0 ∨ p.1 + 1 = (["a", "bb"] : List String).length) ∧
     ((1 : Nat) ≠ 0 → check_file none <+:
       ((get_context R0 D0 ["a", "bb"] [["t", "u"], ["t", "u"]]
        [["g", "h"], ["g", "h"]] 1 none).toOption.getD
          ⟨CtxOut.flat [], [], []⟩).cache) ∧
     ((1 : Nat) ≠ 0 → (check_file none).length <
         (["a", "bb"] : List String).length →
       (((get_context R0 D0 ["a", "bb"] [["t", "u"], ["t", "u"]]
        [["g", "h"], ["g", "h"]] 1 none).toOption.getD
          ⟨CtxOut.flat [], [], []⟩).writes).getLast?.map Prod.snd =
        some ((get_context R0 D0 ["a", "bb"] [["t", "u"], ["t", "u"]]
        [["g", "h"], ["g", "h"]] 1 none).toOption.getD
          ⟨CtxOut.flat [], [], []⟩).cache)) :=
  ⟨rfl,
   get_context_flush_props R0 D0 ["a", "bb"] [["t", "u"], ["t", "u"]]
     [["g", "h"], ["g", "h"]] 1 none _ rfl⟩

/-- Inputs for the long-run flush evaluation: 501 identical queries, each
subject holding two documents, against an artifact that already caches the
ranking for query 0. -/
def c6qs : List String := List.replicate 501 "q"

def c6ts : List (List String) := List.replicate 501 ["t", "u"]

def c6gs : List (List String) := List.replicate 501 ["g", "h"]

set_option maxRecDepth 8192

/-- One cache-miss retrieval step of the long-run input: two identical
one-character documents give equal scores and the reversed ascending
argsort `[1, 0]`. -/
theorem c6_retrieve_step :
    retrieveSingle R0 "q" ["t", "u"] = Except.ok [1, 0] := by
  rfl

theorem c6ts_getD (i : Nat) (hi : i < 501) : c6ts.getD i [] = ["t", "u"] := by
  unfold c6ts
  rw [List.getD_eq_getElem?_getD, List.getElem?_replicate, if_pos hi]
  rfl

/-- Write-trace of the long run over its all-miss tail: starting at query
index `i` with exactly `i` cached entries, the loop succeeds and appends
to the write trace one `(position, snapshot)` pair for every position `j`
in `[i, i+m)` with `(j+1) % 500 == 0` or `j+1 == 501`, the snapshot
holding `j+1` entries. -/
theorem c6_loop (m : Nat) :
    ∀ (i : Nat) (cache : Cache) (writes : List (Nat × Cache)),
      cache.length = i → i + m = 501 →
      ∃ exs c w,
        getCtxLoop R0 D0 c6ts c6gs 1 501 (List.replicate m "q") i cache writes =
          Except.ok (exs, c, w) ∧
        w.map (fun p => (p.1, p.2.length)) =
          writes.map (fun p => (p.1, p.2.length)) ++
            ((List.range' i m).filter
              (fun j => (j + 1) % 500 = 0 ∨ j + 1 = 501)).map
              (fun j => (j, j + 1)) := by
  induction m with
  | zero =>
    intro i cache writes hlen hn
    exact ⟨[], cache, writes, by simp [getCtxLoop], by simp [List.range']⟩
  | succ m ih =>
    intro i cache writes hlen hn
    have hi : i < 501 := by omega
    have hngt : ¬ cache.length > i := by omega
    simp only [List.replicate_succ, getCtxLoop, if_neg hngt, c6ts_getD i hi,
      c6_retrieve_step]
    obtain ⟨exs2, c2, w2, hrec, hmap⟩ :=
      ih (i + 1) (cache ++ [[1, 0]])
        (if (i + 1) % 500 = 0 ∨ i + 1 = 501 then
          writes ++ [(i, cache ++ [[1, 0]])] else writes)
        (by simp [hlen]) (by omega)
    rw [hrec]
    refine ⟨_, c2, w2, rfl, ?_⟩
    rw [hmap, List.range'_succ, List.filter_cons]
    by_cases hflush : (i + 1) % 500 = 0 ∨ i + 1 = 501
    · rw [if_pos hflush, if_pos (by simpa using hflush)]
      simp [hlen, List.append_assoc]
    · rw [if_neg hflush, if_neg (by simpa using hflush)]

/-- Unfolding of one cache-hit step. -/
theorem getCtxLoop_cons_hit (R : RetrModel) (D : RDataset)
    (ts gs : List (List String)) (k n : Nat) (q : String) (rest : List String)
    (i : Nat) (cache : Cache) (writes : List (Nat × Cache))
    (h : cache.length > i) :
    getCtxLoop R D ts gs k n (q :: rest) i cache writes =
      (getCtxLoop R D ts gs k n rest (i + 1) cache writes).map
        (fun r =>
          (formatForQuery D (ts.getD i []) (gs.getD i []) i k
            (cache.getD i []) :: r.1, r.2)) := by
  simp only [getCtxLoop, if_pos h]

set_option maxHeartbeats 1000000

/-- Claim C6 (counterexample): flushes are NOT every 500 appended entries.
Starting from an artifact holding 1 cached entry (so query 0 is a cache
hit), the 501-query run writes the file exactly twice: at query index 499
(the `(i+1) % 500 == 0` trigger) with 500 entries — only `500 - 1 = 499`
of them appended during this run, no multiple of 500, and not at the end
of the run — and at the final query index 500 with 501 entries. -/
theorem get_context_flush_at_499_cex :
    (((get_context R0 D0 c6qs c6ts c6gs 1 (some [[0, 1]])).toOption.getD
        ⟨CtxOut.flat [], [], []⟩).writes).map (fun p => (p.1, p.2.length)) =
      [(499, 500), (500, 501)] ∧
    (500 - 1) % 500 ≠ 0 ∧ 499 + 1 ≠ c6qs.length := by
  refine ⟨?_, by decide, by decide⟩
  obtain ⟨exs2, c2, w2, hrec, hmap⟩ :=
    c6_loop 500 1 [[0, 1]] [] (by decide) (by decide)
  have hqs : c6qs = "q" :: List.replicate 500 "q" := rfl
  have hrun : get_context R0 D0 c6qs c6ts c6gs 1 (some [[0, 1]]) =
      Except.ok ⟨CtxOut.nested
        (formatForQuery D0 (c6ts.getD 0 []) (c6gs.getD 0 []) 0 1
          (([[0, 1]] : Cache).getD 0 []) :: exs2), c2, w2⟩ := by
    unfold get_context
    rw [if_neg (by decide)]
    rw [show check_file (some [[0, 1]]) = [[0, 1]] from rfl]
    rw [show c6qs.length = 501 from rfl]
    rw [hqs]
    rw [getCtxLoop_cons_hit R0 D0 c6ts c6gs 1 501 "q" (List.replicate 500 "q")
      0 [[0, 1]] [] (by decide)]
    rw [hrec]
    rfl
  rw [hrun]
  simp only [Except.toOption, Option.getD]
  rw [hmap]
  simp only [List.map_nil, List.nil_append]
  rw [show ((List.range' 1 500).filter
      (fun j => (j + 1) % 500 = 0 ∨ j + 1 = 501)) = [499, 500] from by decide]
  rfl
